import Mathlib

/-!
Shallow embedding of `charstream` (`src/lib.rs`): a bidirectional character
cursor over an owned `String`, with interior mutability modelled as explicit
state passing.  Every operation of the Rust trait `BiDirectionalIterator`
(`next`, `prev`, `peek_next`, `peek_prev`, `value`) is translated faithfully,
including the order of index updates, the bounds checks, the `assert!` calls,
and the places where the Rust code can panic (usize underflow, slice index
out of bounds, failed assertion).  A panic is modelled by the `fatal` outcome.
-/

/-- Mirrors Rust `enum CharStreamError` from `src/lib.rs`. -/
inductive CharStreamError where
  | NextFailed
  | FallsOffEnd
  | ValueNotFound
deriving DecidableEq, Repr

/-- Mirrors Rust `struct CharStream`.  The `RefCell`s are modelled by explicit
state passing; the owned `String` field `value` is modelled as its list of
characters (Unicode scalar values), and `usize` as `Nat`. -/
structure CharStream where
  payload : List (Option Char)
  value : List Char
  index : Nat
deriving DecidableEq, Repr

/-- Rust `String::len` — the UTF-8 byte length of the string. -/
def utf8Len (s : List Char) : Nat := (s.map Char.utf8Size).sum

/-- Mirrors `CharStream::from` (Rust `from` is a reserved word in Lean):
`payload` is a vector of `s.len() + 1` `None`s, `index` starts at `0`. -/
def CharStream.fromString (s : List Char) : CharStream :=
  { payload := List.replicate (utf8Len s + 1) none
    value := s
    index := 0 }

/-- Result of one method call on the stream: an `Ok` value together with the
stream state after the call, an `Err` value together with the state after the
call, or a Rust panic (`fatal`): integer under/overflow check, `Vec` index out
of bounds, or a failed `assert!`. -/
inductive Outcome (α : Type) where
  | ok : α → CharStream → Outcome α
  | err : CharStreamError → CharStream → Outcome α
  | fatal : Outcome α
deriving DecidableEq, Repr

/-- Mirrors `<CharStream as BiDirectionalIterator>::next`.
The incremented index is committed *before* the bounds check; the filled-in
character is always `self.value.chars().next()`, i.e. the first character of
the string.  `Vec` indexing is `List.get?` with `none` meaning a panic. -/
def CharStream.next (s : CharStream) : Outcome Char :=
  let current := s.index + 1
  let s' := { s with index := current }
  if current > utf8Len s.value then
    .err .FallsOffEnd s'
  else
    match s'.payload[current]? with
    | none => .fatal
    | some (some c) => .ok c s'
    | some none =>
      match s.value.head? with
      | some c =>
        let s'' := { s' with payload := s'.payload.set current (some c) }
        match s''.payload[current]? with
        | none => .fatal
        | some (some c') => .ok c' s''
        | some none => .err .ValueNotFound s''
      | none => .err .FallsOffEnd s'

/-- Mirrors `<CharStream as BiDirectionalIterator>::prev`.
`*self.index.borrow() - 1` is a `usize` subtraction: when `index = 0` it
underflows, which is a panic (`fatal`).  The `assert!(current == 0 ||
self.payload.borrow()[current].is_some())` is modelled by the `fatal` branch
of the inner `if`. -/
def CharStream.prev (s : CharStream) : Outcome Char :=
  if s.index = 1 then
    .err .FallsOffEnd s
  else if s.index = 0 then
    .fatal
  else
    let current := s.index - 1
    let s' := { s with index := current }
    match s'.payload[current]? with
    | none => .fatal
    | some val =>
      if current = 0 ∨ val.isSome then
        match val with
        | some c => .ok c s'
        | none => .err .ValueNotFound s'
      else .fatal

/-- Mirrors `<CharStream as BiDirectionalIterator>::peek_next`: same stepping
logic as `next` but returns `&self` (modelled as `Unit` plus the new state);
the empty-`chars` branch returns `NextFailed` instead of `FallsOffEnd`. -/
def CharStream.peek_next (s : CharStream) : Outcome Unit :=
  let current := s.index + 1
  let s' := { s with index := current }
  if current > utf8Len s.value then
    .err .FallsOffEnd s'
  else
    match s'.payload[current]? with
    | none => .fatal
    | some (some _) => .ok () s'
    | some none =>
      match s.value.head? with
      | some c =>
        let s'' := { s' with payload := s'.payload.set current (some c) }
        match s''.payload[current]? with
        | none => .fatal
        | some val => if val.isSome then .ok () s'' else .fatal
      | none => .err .NextFailed s'

/-- Mirrors `<CharStream as BiDirectionalIterator>::peek_prev`.
`*self.index.borrow() - 1` underflows (panics) when `index = 0`; the
`current == 0` early return does *not* commit the decremented index. -/
def CharStream.peek_prev (s : CharStream) : Outcome Unit :=
  if s.index = 0 then
    .fatal
  else
    let current := s.index - 1
    if current = 0 then
      .err .FallsOffEnd s
    else
      let s' := { s with index := current }
      match s'.payload[current]? with
      | none => .fatal
      | some val => if current = 0 ∨ val.isSome then .ok () s' else .fatal

/-- Mirrors `<CharStream as BiDirectionalIterator>::value` (named `valueOp`
because `CharStream.value` is the struct field): reads `payload[index]`
without moving, `ok_or(ValueNotFound)`. -/
def CharStream.valueOp (s : CharStream) : Outcome Char :=
  match s.payload[s.index]? with
  | none => .fatal
  | some (some c) => .ok c s
  | some none => .err .ValueNotFound s

/-- Run `n` calls to `next`, succeeding only when every call returns `Ok`:
yields the returned characters in order and the final state. -/
def CharStream.nextsOk (s : CharStream) : Nat → Option (List Char × CharStream)
  | 0 => some ([], s)
  | n + 1 =>
    match s.next with
    | .ok c s' => (s'.nextsOk n).map (fun p => (c :: p.1, p.2))
    | _ => none

/-- Run `n` calls to `prev`, succeeding only when every call returns `Ok`. -/
def CharStream.prevsOk (s : CharStream) : Nat → Option (List Char × CharStream)
  | 0 => some ([], s)
  | n + 1 =>
    match s.prev with
    | .ok c s' => (s'.prevsOk n).map (fun p => (c :: p.1, p.2))
    | _ => none

/-- Run `n` calls to `next` keeping the committed state whether each call
succeeds or fails (a panic, which commits no state, stops the run). -/
def CharStream.forceNexts (s : CharStream) : Nat → CharStream
  | 0 => s
  | n + 1 =>
    match s.next with
    | .ok _ s' => s'.forceNexts n
    | .err _ s' => s'.forceNexts n
    | .fatal => s

/-- The stream state an operation left behind, when it did not panic. -/
def Outcome.commit {α : Type} : Outcome α → Option CharStream
  | .ok _ s => some s
  | .err _ s => some s
  | .fatal => none

/-- States of `CharStream` actually reachable through the public API:
construction followed by any sequence of non-panicking calls. -/
inductive Reachable : CharStream → Prop where
  | init (vl : List Char) : Reachable (CharStream.fromString vl)
  | next {s s' : CharStream} : Reachable s → s.next.commit = some s' → Reachable s'
  | prev {s s' : CharStream} : Reachable s → s.prev.commit = some s' → Reachable s'
  | peekNext {s s' : CharStream} : Reachable s → s.peek_next.commit = some s' → Reachable s'
  | peekPrev {s s' : CharStream} : Reachable s → s.peek_prev.commit = some s' → Reachable s'

/-- The characters of the test string `"foobar"`. -/
def strFoobar : List Char := ['f', 'o', 'o', 'b', 'a', 'r']

/-- A string with a multi-byte character: `"aé"` (1-byte `'a'`, 2-byte `'é'`). -/
def strMulti : List Char := ['a', 'é']

/-- Payload facts maintained along any run of successful `next`/`prev` calls
from a fresh stream: the vector keeps its construction length, slot `0` stays
the `None` sentinel, every slot in `[1, index]` (capped at the byte length)
holds the cached first character, and every slot in `[1, len]` holds either
the cached first character or `None`. -/
def CharStream.Inv (s : CharStream) : Prop :=
  s.payload.length = utf8Len s.value + 1 ∧
  s.payload[0]? = some none ∧
  (∀ i, 1 ≤ i → i ≤ s.index → i ≤ utf8Len s.value →
    s.payload[i]? = some (some s.value.headI)) ∧
  (∀ i, 1 ≤ i → i ≤ utf8Len s.value →
    s.payload[i]? = some (some s.value.headI) ∨ s.payload[i]? = some none)

lemma head?_eq_headI {α : Type} [Inhabited α] (l : List α) (h : l ≠ []) :
    l.head? = some l.headI := by
  cases l with
  | nil => exact absurd rfl h
  | cons a t => rfl

lemma getLast?_replicate_succ {α : Type} (n : Nat) (a : α) :
    (List.replicate (n + 1) a).getLast? = some a := by
  induction n with
  | zero => rfl
  | succ m ih =>
    rw [List.replicate_succ, List.replicate_succ, List.getLast?_cons_cons,
      ← List.replicate_succ, ih]

lemma inv_fromString (vl : List Char) : (CharStream.fromString vl).Inv := by
  refine ⟨?_, ?_, ?_, ?_⟩
  · simp [CharStream.fromString]
  · simp [CharStream.fromString, List.getElem?_replicate]
  · intro i h1 h2 _
    have hz : (CharStream.fromString vl).index = 0 := rfl
    omega
  · intro i _ h2
    right
    have hv : (CharStream.fromString vl).value = vl := rfl
    rw [hv] at h2
    show (List.replicate (utf8Len vl + 1) (none : Option Char))[i]? = some none
    rw [List.getElem?_replicate, if_pos (by omega)]

/-- Calling `next` when the candidate index is at or past the byte length: the error
is `FallsOffEnd` and the incremented index is committed anyway. -/
lemma next_falls_off_of_index_ge {s : CharStream} (h : utf8Len s.value ≤ s.index) :
    s.next = .err .FallsOffEnd { s with index := s.index + 1 } := by
  unfold CharStream.next
  rw [if_pos (Nat.lt_succ_of_le h)]

/-- One in-range `next` under the invariant: it returns the first character of
the string (not the character at the new position) and preserves `Inv`. -/
lemma next_step {s : CharStream} (hInv : s.Inv) (h : s.index + 1 ≤ utf8Len s.value) :
    ∃ st, s.next = .ok s.value.headI st ∧ st.Inv ∧
      st.index = s.index + 1 ∧ st.value = s.value := by
  obtain ⟨hlen, h0, hC, hD⟩ := hInv
  have hno : ¬ (utf8Len s.value < s.index + 1) := by omega
  rcases hD (s.index + 1) (by omega) h with hcache | hempty
  · refine ⟨{ s with index := s.index + 1 }, ?_, ⟨hlen, h0, ?_, hD⟩, rfl, rfl⟩
    · simp [CharStream.next, hno, hcache]
    · intro i h1 h2 h3
      have h2' : i ≤ s.index + 1 := h2
      have h3' : i ≤ utf8Len s.value := h3
      show s.payload[i]? = some (some s.value.headI)
      rcases Nat.lt_or_ge i (s.index + 1) with hi | hi
      · exact hC i h1 (by omega) h3'
      · have hie : i = s.index + 1 := by omega
        rw [hie]
        exact hcache
  · have hne : s.value ≠ [] := by
      intro he
      rw [he] at h
      simp [utf8Len] at h
    have hhd := head?_eq_headI s.value hne
    have hlt : s.index + 1 < s.payload.length := by omega
    have hset := List.getElem?_set_eq_of_lt (some s.value.headI) hlt
    refine ⟨{ s with
              payload := s.payload.set (s.index + 1) (some s.value.headI),
              index := s.index + 1 },
      ?_, ⟨?_, ?_, ?_, ?_⟩, rfl, rfl⟩
    · simp [CharStream.next, hno, hempty, hhd, hset]
    · show (s.payload.set (s.index + 1) (some s.value.headI)).length = utf8Len s.value + 1
      simp [List.length_set, hlen]
    · show (s.payload.set (s.index + 1) (some s.value.headI))[0]? = some none
      rw [List.getElem?_set_ne (by omega)]
      exact h0
    · intro i h1 h2 h3
      have h2' : i ≤ s.index + 1 := h2
      have h3' : i ≤ utf8Len s.value := h3
      show (s.payload.set (s.index + 1) (some s.value.headI))[i]? =
        some (some s.value.headI)
      rcases Nat.lt_or_ge i (s.index + 1) with hi | hi
      · rw [List.getElem?_set_ne (by omega)]
        exact hC i h1 (by omega) h3'
      · have hie : i = s.index + 1 := by omega
        rw [hie]
        exact hset
    · intro i h1 h2
      have h2' : i ≤ utf8Len s.value := h2
      show (s.payload.set (s.index + 1) (some s.value.headI))[i]? =
          some (some s.value.headI) ∨
        (s.payload.set (s.index + 1) (some s.value.headI))[i]? = some none
      rcases eq_or_ne i (s.index + 1) with hi | hi
      · left
        rw [hi]
        exact hset
      · rw [List.getElem?_set_ne (Ne.symm hi)]
        exact hD i h1 h2'

/-- A run of `n` in-range `next` calls from a state satisfying the invariant:
all succeed, every returned character is the first character of the string,
and the index advances by `n`. -/
lemma nextsOk_run : ∀ (n : Nat) (s : CharStream), s.Inv →
    s.index + n ≤ utf8Len s.value →
    ∃ st, s.nextsOk n = some (List.replicate n s.value.headI, st) ∧
      st.Inv ∧ st.index = s.index + n ∧ st.value = s.value := by
  intro n
  induction n with
  | zero => exact fun s hInv _ => ⟨s, rfl, hInv, rfl, rfl⟩
  | succ m ih =>
    intro s hInv h
    obtain ⟨st1, hnext, hInv1, hidx1, hval1⟩ := next_step hInv (by omega)
    obtain ⟨st2, hrun, hInv2, hidx2, hval2⟩ := ih st1 hInv1 (by rw [hidx1, hval1]; omega)
    refine ⟨st2, ?_, hInv2, by omega, by rw [hval2, hval1]⟩
    simp [CharStream.nextsOk, hnext, hrun, hval1, List.replicate_succ]

/-- C1: the claim says six `next` calls on a fresh cursor over `"foobar"`
return `'f','o','o','b','a','r'` in order.  The code instead fills every
payload slot with `self.value.chars().next()` — the *first* character — so all
six calls return `'f'`; the claim fails at its own concrete scenario (the
second call returns `'f'`, not `'o'`). -/
theorem charstream_next_returns_first_char_not_in_order :
    ((CharStream.fromString strFoobar).nextsOk 6).map Prod.fst =
      some (List.replicate 6 'f') ∧ List.replicate 6 'f' ≠ strFoobar := by
  decide

/-- C2: the claim says the position always stays in `[0, len+1]` (sentinel
encoding) and the storage is never read out of range.  In the code two failing
`next` calls past the end commit index `8 > 7 = len + 1`, and `prev` from that
state reads `payload[7]` — one past the last slot of the 7-element vector — a
panic. -/
theorem charstream_position_escapes_and_reads_out_of_bounds :
    ((CharStream.fromString strFoobar).forceNexts 8).index = 8 ∧
      utf8Len ((CharStream.fromString strFoobar).forceNexts 8).value + 1 = 7 ∧
      ((CharStream.fromString strFoobar).forceNexts 8).prev = .fatal := by
  decide

/-- C3: the claim says `prev` on a freshly constructed cursor returns the
OutOfBounds error rather than crashing.  The code computes
`*self.index.borrow() - 1` with `index = 0`, a `usize` underflow — a panic,
not an error return. -/
theorem charstream_prev_on_fresh_panics :
    (CharStream.fromString strFoobar).prev = .fatal := by
  decide

/-- C4 counterexample: the claim says every failing `next` past the end leaves
the position at exactly `len` (index `len + 1 = 7`).  On `"foobar"` the 7th
and 8th calls both fail with `FallsOffEnd`, but the 8th leaves index `8 ≠ 7`:
the exhausted position is not idempotent. -/
theorem charstream_exhausted_position_not_idempotent :
    ((CharStream.fromString strFoobar).forceNexts 6).next =
        .err .FallsOffEnd ((CharStream.fromString strFoobar).forceNexts 7) ∧
      ((CharStream.fromString strFoobar).forceNexts 7).index = 7 ∧
      ((CharStream.fromString strFoobar).forceNexts 7).next =
        .err .FallsOffEnd ((CharStream.fromString strFoobar).forceNexts 8) ∧
      ((CharStream.fromString strFoobar).forceNexts 8).index = 8 ∧
      (8 : Nat) ≠ 7 := by
  decide

/-- C4 amended: whenever `next` is called with the position at or past the
last valid index (candidate `≥ len`), it fails with the `FallsOffEnd`
(OutOfBounds) error — never a crash — but commits the incremented index, so
the first failure sets the position to `len` (index `len + 1`, Exhausted) and
each further failing call advances the position by one more. -/
theorem charstream_next_past_end_errs_and_advances (s : CharStream)
    (h : utf8Len s.value ≤ s.index) :
    s.next = .err .FallsOffEnd { s with index := s.index + 1 } := by
  unfold CharStream.next
  rw [if_pos (Nat.lt_succ_of_le h)]

/-- Witness for C4 amended at the first exhausted state of `"foobar"`. -/
theorem charstream_next_past_end_errs_and_advances_witness :
    ((CharStream.fromString strFoobar).forceNexts 7).next =
      .err .FallsOffEnd
        { (CharStream.fromString strFoobar).forceNexts 7 with
            index := ((CharStream.fromString strFoobar).forceNexts 7).index + 1 } :=
  charstream_next_past_end_errs_and_advances _ (by decide)

/-- C5: the claim says no navigation call can reach a fatal outcome because
bounds are checked before every read.  `peek_prev` on a fresh cursor
underflows `usize` (`0 - 1`) before any bounds check — a panic, i.e. a fatal
outcome reachable by a single navigation call. -/
theorem charstream_peek_prev_on_fresh_panics :
    (CharStream.fromString strFoobar).peek_prev = .fatal := by
  decide

/-- C6: with the cursor on the first character (index `1` in the sentinel
encoding), `prev` fails with `FallsOffEnd` (OutOfBounds) and returns the
state entirely unchanged — it does not move to the Unstarted sentinel. -/
theorem charstream_prev_at_first_char_noop_failure (s : CharStream)
    (h : s.index = 1) : s.prev = .err .FallsOffEnd s := by
  unfold CharStream.prev
  rw [if_pos h]

/-- Witness for C6 at the state reached by one `next` over `"foobar"`. -/
theorem charstream_prev_at_first_char_noop_failure_witness :
    ((CharStream.fromString strFoobar).forceNexts 1).prev =
      .err .FallsOffEnd ((CharStream.fromString strFoobar).forceNexts 1) :=
  charstream_prev_at_first_char_noop_failure _ (by decide)

/-- C9: on a freshly constructed cursor `value()` returns the
`ValueNotFound` error — neither a character nor a crash — because
construction puts `None` in the sentinel slot `payload[0]` at the initial
index `0`. -/
theorem charstream_value_on_fresh_errs (vl : List Char) :
    (CharStream.fromString vl).valueOp =
        .err .ValueNotFound (CharStream.fromString vl) ∧
      (CharStream.fromString vl).payload.get? (CharStream.fromString vl).index =
        some none := by
  constructor
  · simp [CharStream.valueOp, CharStream.fromString, List.replicate_succ]
  · simp [CharStream.fromString, List.replicate_succ]

lemma length_le_utf8Len (vl : List Char) : vl.length ≤ utf8Len vl := by
  induction vl with
  | nil => simp [utf8Len]
  | cons a t ih =>
    have hcons : utf8Len (a :: t) = a.utf8Size + utf8Len t := by simp [utf8Len]
    have hpos := Char.utf8Size_pos a
    simp only [List.length_cons]
    omega

lemma utf8Len_gt_length_of_multibyte {vl : List Char} {c : Char} (hc : c ∈ vl)
    (hs : 1 < c.utf8Size) : vl.length < utf8Len vl := by
  induction vl with
  | nil => cases hc
  | cons a t ih =>
    have hcons : utf8Len (a :: t) = a.utf8Size + utf8Len t := by simp [utf8Len]
    have hlen := length_le_utf8Len t
    have hpos := Char.utf8Size_pos a
    rcases List.mem_cons.mp hc with rfl | hmem
    · simp only [List.length_cons]
      omega
    · have := ih hmem
      simp only [List.length_cons]
      omega

lemma replicate_eq_cons {α : Type} (n : Nat) (h : 1 ≤ n) (a : α) :
    List.replicate n a = a :: List.replicate (n - 1) a := by
  obtain ⟨m, rfl⟩ : ∃ m, n = m + 1 := ⟨n - 1, by omega⟩
  rfl

/-- C10: for every source string (as its character list), `next` from a fresh
cursor succeeds exactly `b` times where `b` is the UTF-8 *byte* length of the
string, and the `(b+1)`-th call fails with `FallsOffEnd`; for a string with a
multi-byte character the number of successes exceeds the number of
characters.  (At `vl = []` the run is empty and the very first call fails.) -/
theorem charstream_next_succeeds_bytelen_times (vl : List Char) :
    ∃ cs st, (CharStream.fromString vl).nextsOk (utf8Len vl) = some (cs, st) ∧
      cs.length = utf8Len vl ∧
      st.next = .err .FallsOffEnd { st with index := st.index + 1 } ∧
      ((∃ c ∈ vl, 1 < c.utf8Size) → vl.length < utf8Len vl) := by
  obtain ⟨st, hrun, hInv, hidx, hval⟩ :=
    nextsOk_run (utf8Len vl) (CharStream.fromString vl) (inv_fromString vl)
      (by simp [CharStream.fromString])
  have hv : (CharStream.fromString vl).value = vl := rfl
  rw [hv] at hrun hval
  refine ⟨List.replicate (utf8Len vl) vl.headI, st, hrun, by simp, ?_, ?_⟩
  · apply next_falls_off_of_index_ge
    rw [hval, hidx]
    simp [CharStream.fromString]
  · rintro ⟨c, hc, hs⟩
    exact utf8Len_gt_length_of_multibyte hc hs

/-- Witness for C10 at `"aé"`: three successful calls for two characters. -/
theorem charstream_next_succeeds_bytelen_times_witness :
    ∃ cs st, (CharStream.fromString strMulti).nextsOk (utf8Len strMulti) = some (cs, st) ∧
      cs.length = utf8Len strMulti ∧
      st.next = .err .FallsOffEnd { st with index := st.index + 1 } ∧
      strMulti.length < utf8Len strMulti := by
  obtain ⟨cs, st, h1, h2, h3, h4⟩ := charstream_next_succeeds_bytelen_times strMulti
  exact ⟨cs, st, h1, h2, h3, h4 ⟨'é', by decide, by decide⟩⟩

/-- One in-range `prev` from index `≥ 2` under the invariant: it moves back
one slot and returns the cached first character stored there. -/
lemma prev_step {s : CharStream} (hInv : s.Inv) (h2 : 2 ≤ s.index)
    (hle : s.index ≤ utf8Len s.value) :
    ∃ st, s.prev = .ok s.value.headI st ∧ st.Inv ∧
      st.index = s.index - 1 ∧ st.value = s.value := by
  obtain ⟨hlen, h0, hC, hD⟩ := hInv
  have hcur : s.payload[s.index - 1]? = some (some s.value.headI) :=
    hC (s.index - 1) (by omega) (by omega) (by omega)
  refine ⟨{ s with index := s.index - 1 }, ?_, ⟨hlen, h0, ?_, hD⟩, rfl, rfl⟩
  · simp [CharStream.prev, show s.index ≠ 1 by omega, show s.index ≠ 0 by omega, hcur]
  · intro i h1 hi2 hi3
    have hi2' : i ≤ s.index - 1 := hi2
    have hi3' : i ≤ utf8Len s.value := hi3
    exact hC i h1 (by omega) hi3'

/-- A run of `n` `prev` calls staying at index `≥ 1`: all succeed and every
returned character is the cached first character of the string. -/
lemma prevsOk_run : ∀ (n : Nat) (s : CharStream), s.Inv → n + 1 ≤ s.index →
    s.index ≤ utf8Len s.value →
    ∃ st, s.prevsOk n = some (List.replicate n s.value.headI, st) ∧
      st.Inv ∧ st.index = s.index - n ∧ st.value = s.value := by
  intro n
  induction n with
  | zero => exact fun s hInv _ _ => ⟨s, rfl, hInv, rfl, rfl⟩
  | succ m ih =>
    intro s hInv h hle
    obtain ⟨st1, hprev, hInv1, hidx1, hval1⟩ := prev_step hInv (by omega) hle
    obtain ⟨st2, hrun, hInv2, hidx2, hval2⟩ :=
      ih st1 hInv1 (by omega) (by rw [hidx1, hval1]; omega)
    refine ⟨st2, ?_, hInv2, by omega, by rw [hval2, hval1]⟩
    simp [CharStream.prevsOk, hprev, hrun, hval1, List.replicate_succ]

/-- C7: round trip — for every fresh cursor and every `k ≥ 2` with `k`
successful `next` calls available, the `k` `next` calls followed by `k - 1`
successful `prev` calls end with the final `prev` returning the same
character the first `next` returned. -/
theorem charstream_round_trip (vl : List Char) (k : Nat) (h2 : 2 ≤ k)
    (hk : k ≤ utf8Len vl) :
    ∃ c cs st cs' st',
      (CharStream.fromString vl).nextsOk k = some (c :: cs, st) ∧
      st.prevsOk (k - 1) = some (cs', st') ∧
      cs'.getLast? = some c := by
  obtain ⟨st, hrun, hInv, hidx, hval⟩ :=
    nextsOk_run k (CharStream.fromString vl) (inv_fromString vl)
      (by simpa [CharStream.fromString] using hk)
  have hv : (CharStream.fromString vl).value = vl := rfl
  rw [hv] at hrun hval
  have hidx' : st.index = k := by
    rw [hidx]
    simp [CharStream.fromString]
  obtain ⟨st', hrun', hInv', hidx2, hval2⟩ :=
    prevsOk_run (k - 1) st hInv (by omega) (by rw [hval]; omega)
  rw [hval] at hrun'
  refine ⟨vl.headI, List.replicate (k - 1) vl.headI, st,
    List.replicate (k - 1) vl.headI, st', ?_, hrun', ?_⟩
  · rw [hrun, replicate_eq_cons k (by omega) vl.headI]
  · obtain ⟨m, hm⟩ : ∃ m, k - 1 = m + 1 := ⟨k - 2, by omega⟩
    rw [hm]
    exact getLast?_replicate_succ m vl.headI

/-- Witness for C7 at `"foobar"` with `k = 3`. -/
theorem charstream_round_trip_witness :
    ∃ c cs st cs' st',
      (CharStream.fromString strFoobar).nextsOk 3 = some (c :: cs, st) ∧
      st.prevsOk (3 - 1) = some (cs', st') ∧
      cs'.getLast? = some c :=
  charstream_round_trip strFoobar 3 (by decide) (by decide)

/-- Any state committed by `next` (success or error) has the same payload or
the payload with slot `index + 1` overwritten — never slot `0`. -/
lemma next_commit_sentinel {s s' : CharStream} (h : s.next.commit = some s')
    (h0 : s.payload[0]? = some none) : s'.payload[0]? = some none := by
  simp only [CharStream.next] at h
  split at h
  · simp only [Outcome.commit, Option.some.injEq] at h
    subst h
    exact h0
  · split at h
    · simp [Outcome.commit] at h
    · simp only [Outcome.commit, Option.some.injEq] at h
      subst h
      exact h0
    · split at h
      · split at h
        · simp [Outcome.commit] at h
        · simp only [Outcome.commit, Option.some.injEq] at h
          subst h
          show (s.payload.set (s.index + 1) _)[0]? = some none
          rw [List.getElem?_set_ne (by omega)]
          exact h0
        · simp only [Outcome.commit, Option.some.injEq] at h
          subst h
          show (s.payload.set (s.index + 1) _)[0]? = some none
          rw [List.getElem?_set_ne (by omega)]
          exact h0
      · simp only [Outcome.commit, Option.some.injEq] at h
        subst h
        exact h0

/-- Any state committed by `prev` keeps the payload unchanged. -/
lemma prev_commit_sentinel {s s' : CharStream} (h : s.prev.commit = some s')
    (h0 : s.payload[0]? = some none) : s'.payload[0]? = some none := by
  simp only [CharStream.prev] at h
  split at h
  · simp only [Outcome.commit, Option.some.injEq] at h
    subst h
    exact h0
  · split at h
    · simp [Outcome.commit] at h
    · split at h
      · simp [Outcome.commit] at h
      · split at h
        · split at h
          · simp only [Outcome.commit, Option.some.injEq] at h
            subst h
            exact h0
          · simp only [Outcome.commit, Option.some.injEq] at h
            subst h
            exact h0
        · simp [Outcome.commit] at h

/-- Any state committed by `peek_next` has the same payload or the payload
with slot `index + 1` overwritten — never slot `0`. -/
lemma peek_next_commit_sentinel {s s' : CharStream}
    (h : s.peek_next.commit = some s')
    (h0 : s.payload[0]? = some none) : s'.payload[0]? = some none := by
  simp only [CharStream.peek_next] at h
  split at h
  · simp only [Outcome.commit, Option.some.injEq] at h
    subst h
    exact h0
  · split at h
    · simp [Outcome.commit] at h
    · simp only [Outcome.commit, Option.some.injEq] at h
      subst h
      exact h0
    · split at h
      · split at h
        · simp [Outcome.commit] at h
        · split at h
          · simp only [Outcome.commit, Option.some.injEq] at h
            subst h
            show (s.payload.set (s.index + 1) _)[0]? = some none
            rw [List.getElem?_set_ne (by omega)]
            exact h0
          · simp [Outcome.commit] at h
      · simp only [Outcome.commit, Option.some.injEq] at h
        subst h
        exact h0

/-- Any state committed by `peek_prev` keeps the payload unchanged. -/
lemma peek_prev_commit_sentinel {s s' : CharStream}
    (h : s.peek_prev.commit = some s')
    (h0 : s.payload[0]? = some none) : s'.payload[0]? = some none := by
  simp only [CharStream.peek_prev] at h
  split at h
  · simp [Outcome.commit] at h
  · split at h
    · simp only [Outcome.commit, Option.some.injEq] at h
      subst h
      exact h0
    · split at h
      · simp [Outcome.commit] at h
      · split at h
        · simp only [Outcome.commit, Option.some.injEq] at h
          subst h
          exact h0
        · simp [Outcome.commit] at h

/-- Every reachable state keeps the `None` sentinel in payload slot `0`:
the navigation methods only ever write slots `≥ 1`. -/
lemma reachable_sentinel {s : CharStream} (h : Reachable s) :
    s.payload[0]? = some none := by
  induction h with
  | init vl => simp [CharStream.fromString, List.getElem?_replicate]
  | next _ hc ih => exact next_commit_sentinel hc ih
  | prev _ hc ih => exact prev_commit_sentinel hc ih
  | peekNext _ hc ih => exact peek_next_commit_sentinel hc ih
  | peekPrev _ hc ih => exact peek_prev_commit_sentinel hc ih

/-- A successful `peek_next` advances the index by exactly one and changes no
payload slot other than (possibly) the newly visited one. -/
lemma peek_next_ok_shape {s s' : CharStream} (h : s.peek_next = .ok () s') :
    s'.index = s.index + 1 ∧ s'.value = s.value ∧
    ∀ i, i ≠ s.index + 1 → s'.payload[i]? = s.payload[i]? := by
  simp only [CharStream.peek_next] at h
  split at h
  · simp at h
  · split at h
    · simp at h
    · simp only [Outcome.ok.injEq, true_and] at h
      subst h
      exact ⟨rfl, rfl, fun i _ => rfl⟩
    · split at h
      · split at h
        · simp at h
        · split at h
          · simp only [Outcome.ok.injEq, true_and] at h
            subst h
            refine ⟨rfl, rfl, fun i hi => ?_⟩
            show (s.payload.set (s.index + 1) _)[i]? = s.payload[i]?
            exact List.getElem?_set_ne (Ne.symm hi)
          · simp at h
      · simp at h

/-- Calling `peek_prev` from index `j + 1` with `j ≠ 0` and a cached character in
slot `j` succeeds, committing index `j`. -/
lemma peek_prev_of_cached {s' : CharStream} {j : Nat} {c : Char}
    (hi : s'.index = j + 1) (hj : j ≠ 0) (hv : s'.payload[j]? = some (some c)) :
    s'.peek_prev = .ok () { s' with index := j } := by
  simp [CharStream.peek_prev, hi, hj, hv]

/-- The `value` operation returns the character cached at the current index. -/
lemma valueOp_of_cached {s : CharStream} {c : Char}
    (hv : s.payload[s.index]? = some (some c)) : s.valueOp = .ok c s := by
  simp [CharStream.valueOp, hv]

/-- Conversely, a successful `value` call means the current slot caches the
returned character. -/
lemma valueOp_ok_cached {s s₀ : CharStream} {c : Char}
    (h : s.valueOp = .ok c s₀) : s.payload[s.index]? = some (some c) := by
  simp only [CharStream.valueOp] at h
  split at h
  · simp at h
  · rename_i heq
    simp only [Outcome.ok.injEq] at h
    rw [heq, h.1]
  · simp at h

/-- C8: from any reachable cursor state where `value()` returns a character,
a successful `peek_next` immediately followed by `peek_prev` brings the
cursor back to that character: `value()` after the pair returns the same
character (and the index is restored). -/
theorem charstream_peek_pair_restores_value (s : CharStream) (hr : Reachable s)
    (c : Char) (s' : CharStream) (hv : s.valueOp = .ok c s)
    (hn : s.peek_next = .ok () s') :
    ∃ s'', s'.peek_prev = .ok () s'' ∧ s''.valueOp = .ok c s'' ∧
      s''.index = s.index := by
  have h0 := reachable_sentinel hr
  have hvc := valueOp_ok_cached hv
  have hidx0 : s.index ≠ 0 := by
    intro he
    rw [he, h0] at hvc
    simp at hvc
  obtain ⟨hi, hval, hpres⟩ := peek_next_ok_shape hn
  have hvc' : s'.payload[s.index]? = some (some c) := by
    rw [hpres s.index (by omega)]
    exact hvc
  refine ⟨{ s' with index := s.index }, ?_, ?_, rfl⟩
  · exact peek_prev_of_cached hi hidx0 hvc'
  · exact valueOp_of_cached hvc'

/-- Witness for C8 at the state reached by one `next` over `"foobar"`. -/
theorem charstream_peek_pair_restores_value_witness :
    ∃ s'', (⟨[none, some 'f', some 'f', none, none, none, none],
        strFoobar, 2⟩ : CharStream).peek_prev = .ok () s'' ∧
      s''.valueOp = .ok 'f' s'' ∧
      s''.index = (⟨[none, some 'f', none, none, none, none, none],
        strFoobar, 1⟩ : CharStream).index :=
  charstream_peek_pair_restores_value
    ⟨[none, some 'f', none, none, none, none, none], strFoobar, 1⟩
    (Reachable.next (Reachable.init strFoobar) (by decide))
    'f'
    ⟨[none, some 'f', some 'f', none, none, none, none], strFoobar, 2⟩
    (by decide) (by decide)
